import Mathlib

/-!
Shallow embedding of the DCP backfill scheduling and admission-control
subsystem: the per-connection `BackfillManager` (its four queues and the
single-step `backfill()` drive operation) and the bucket-wide tracker state
held in `DcpConnMap` (`running`/`maxRunning` counters plus the
`pendingQueue` of waiting managers, from src/engines/ep/src/dcp/dcpconnmap.h).

The `BackfillManager` implementation file is not under src/ — only its unit
tests (src/engines/ep/tests/module_tests/backfill-manager_test.cc) and the
tracker declarations are — so the manager's operations are modelled from the
spec, and every theorem about them is checked against the concrete call
sequences the unit tests pin down (mocked tracker answers and mocked
backfill run() outcomes).
-/

/-- Outcome of a single `DCPBackfillIface::run()` call; source enum
`backfill_status_t` as used in backfill-manager_test.cc. -/
inductive backfill_status_t
  | backfill_success
  | backfill_finished
  | backfill_snooze
deriving DecidableEq, Repr

/-- Result of `BackfillManager::schedule` (source:
`BackfillManager::ScheduleResult` in backfill-manager_test.cc). -/
inductive ScheduleResult
  | Active
  | Pending
deriving DecidableEq, Repr

/-- Per-manager ordering policy (source: `BackfillManager::ScheduleOrder`,
set via `setBackfillOrder` in backfill-manager_test.cc). -/
inductive ScheduleOrder
  | RoundRobin
  | Sequential
deriving DecidableEq, Repr

/-- Modelled from the spec: a `DCPBackfillIface` work unit (the concrete
backfill implementations live in the excluded storage layer). A backfill is
identified by its vbucket id; its future `run()` outcomes are given as a
script, exactly as the GMock backfills of backfill-manager_test.cc
predetermine theirs. -/
structure DCPBackfillIface where
  vbid : Nat
  script : List backfill_status_t
deriving DecidableEq, Repr

/-- One `run()` call: the next scripted outcome together with the backfill
with that outcome consumed. Scripts are never exhausted in any theorem
below; the `headD` default mirrors a mock that would keep returning
`backfill_finished` past saturation. -/
def runBackfill (b : DCPBackfillIface) : backfill_status_t × DCPBackfillIface :=
  (b.script.headD backfill_status_t.backfill_finished, ⟨b.vbid, b.script.tail⟩)

/-- Calls the BackfillManager makes on its collaborators, in order — the
observable trace that the GMock `InSequence` expectations of
backfill-manager_test.cc constrain. -/
inductive ManagerCall
  | canAddBackfillToActiveQ (ok : Bool)
  | decrNumActiveSnoozingBackfills
  | runCall (vbid : Nat) (outcome : backfill_status_t)
  | cancelCall (vbid : Nat)
deriving DecidableEq, Repr

/-- Modelled from the spec: the queue state of one `BackfillManager`
(backfill-manager.cc/.h are not under src/): four disjoint FIFO queues plus
the ordering policy for consuming `activeQ`. -/
structure BackfillManager where
  pendingQ : List DCPBackfillIface
  initializingQ : List DCPBackfillIface
  activeQ : List DCPBackfillIface
  snoozingQ : List DCPBackfillIface
  order : ScheduleOrder
deriving DecidableEq, Repr

/-- A freshly constructed manager: all queues empty. -/
def emptyBM (o : ScheduleOrder) : BackfillManager := ⟨[], [], [], [], o⟩

/-- Modelled from the spec: `BackfillManager::schedule`. The tracker's
admission answer is passed in as `ok`, standing for the mocked
`canAddBackfillToActiveQ` return value; the emitted trace records that one
tracker call. Admission puts the backfill at the back of `initializingQ`
(result `Active`); denial puts it at the back of `pendingQ` (result
`Pending`). -/
def schedule (s : BackfillManager) (b : DCPBackfillIface) (ok : Bool) :
    BackfillManager × ScheduleResult × List ManagerCall :=
  if ok then
    ({ s with initializingQ := s.initializingQ ++ [b] }, ScheduleResult.Active,
      [ManagerCall.canAddBackfillToActiveQ true])
  else
    ({ s with pendingQ := s.pendingQ ++ [b] }, ScheduleResult.Pending,
      [ManagerCall.canAddBackfillToActiveQ false])

/-- Modelled from the spec: dispatch on the outcome of one `run()` call.
`toFront` is true only for the `Sequential` consumption of `activeQ`, where
a `backfill_success` leaves the backfill at the front so it is re-run next;
everywhere else a successful backfill goes to the back of `activeQ`. A
finished backfill is discarded and one tracker decrement is issued; a
snoozing backfill goes to the back of `snoozingQ`. -/
def dispatchOutcome (s : BackfillManager) (b : DCPBackfillIface) (toFront : Bool) :
    BackfillManager × List ManagerCall :=
  match runBackfill b with
  | (backfill_status_t.backfill_success, b') =>
      (if toFront then { s with activeQ := b' :: s.activeQ }
       else { s with activeQ := s.activeQ ++ [b'] },
       [ManagerCall.runCall b.vbid backfill_status_t.backfill_success])
  | (backfill_status_t.backfill_finished, _) =>
      (s, [ManagerCall.runCall b.vbid backfill_status_t.backfill_finished,
           ManagerCall.decrNumActiveSnoozingBackfills])
  | (backfill_status_t.backfill_snooze, b') =>
      ({ s with snoozingQ := s.snoozingQ ++ [b'] },
       [ManagerCall.runCall b.vbid backfill_status_t.backfill_snooze])

/-- Modelled from the spec: phase 1 of `BackfillManager::backfill()` — if
`pendingQ` is non-empty, make exactly one admission attempt (answer `ok`);
on success move the front of `pendingQ` to the back of `initializingQ`. -/
def movePendingToInitializing (s : BackfillManager) (ok : Bool) :
    BackfillManager × List ManagerCall :=
  match s.pendingQ with
  | [] => (s, [])
  | b :: rest =>
    if ok then
      ({ s with pendingQ := rest, initializingQ := s.initializingQ ++ [b] },
        [ManagerCall.canAddBackfillToActiveQ true])
    else (s, [ManagerCall.canAddBackfillToActiveQ false])

/-- Modelled from the spec: phases 2-5 of `BackfillManager::backfill()` —
run the front of `initializingQ` if any; else consume `activeQ` per the
ordering policy; else re-promote the front of `snoozingQ` to the back of
`activeQ`; else no-op. At most one `run()` call is made. -/
def runOne (s : BackfillManager) : BackfillManager × List ManagerCall :=
  match s.initializingQ with
  | b :: rest => dispatchOutcome { s with initializingQ := rest } b false
  | [] =>
    match s.activeQ with
    | b :: rest =>
      match s.order with
      | ScheduleOrder.RoundRobin => dispatchOutcome { s with activeQ := rest } b false
      | ScheduleOrder.Sequential => dispatchOutcome { s with activeQ := rest } b true
    | [] =>
      match s.snoozingQ with
      | b :: rest => ({ s with snoozingQ := rest, activeQ := s.activeQ ++ [b] }, [])
      | [] => (s, [])

/-- Modelled from the spec: `BackfillManager::backfill()`, the single
driver-facing step — one possible admission attempt followed by at most one
`run()` call, with the emitted tracker/backfill calls concatenated in
order. -/
def backfill (s : BackfillManager) (ok : Bool) : BackfillManager × List ManagerCall :=
  let p := movePendingToInitializing s ok
  let r := runOne p.1
  (r.1, p.2 ++ r.2)

/-- Drive the manager `n` steps with every admission attempt answered
`true` (the `ignoreBackfillTracker` configuration of the tests). -/
def drive : BackfillManager → Nat → BackfillManager × List ManagerCall
  | s, 0 => (s, [])
  | s, n + 1 =>
    let p := backfill s true
    let r := drive p.1 n
    (r.1, p.2 ++ r.2)

/-- Drive the manager one step per answer in `answers` (the mocked tracker's
scripted admission decisions). -/
def driveWith : BackfillManager → List Bool → BackfillManager × List ManagerCall
  | s, [] => (s, [])
  | s, ok :: answers =>
    let p := backfill s ok
    let r := driveWith p.1 answers
    (r.1, p.2 ++ r.2)

/-- Schedule a whole list of backfills in order, every admission granted. -/
def scheduleAll : BackfillManager → List DCPBackfillIface →
    BackfillManager × List ScheduleResult × List ManagerCall
  | s, [] => (s, [], [])
  | s, b :: bs =>
    let p := schedule s b true
    let r := scheduleAll p.1 bs
    (r.1, p.2.1 :: r.2.1, p.2.2 ++ r.2.2)

/-- One lifetime operation on a manager: a `schedule` call or a `backfill`
step, each with the tracker's admission answer for it. -/
inductive ManagerOp
  | scheduleOp (b : DCPBackfillIface) (ok : Bool)
  | backfillOp (ok : Bool)
deriving Repr

/-- Run a list of lifetime operations, concatenating the emitted calls. -/
def runOps : BackfillManager → List ManagerOp → BackfillManager × List ManagerCall
  | s, [] => (s, [])
  | s, ManagerOp.scheduleOp b ok :: ops =>
    let p := schedule s b ok
    let r := runOps p.1 ops
    (r.1, p.2.2 ++ r.2)
  | s, ManagerOp.backfillOp ok :: ops =>
    let p := backfill s ok
    let r := runOps p.1 ops
    (r.1, p.2 ++ r.2)

/-- Modelled from the spec: the BackfillManager destructor's bookkeeping —
walk every entry still held in `initializingQ`/`activeQ`/`snoozingQ` and
issue one `decrNumActiveSnoozingBackfills` per entry; `pendingQ` entries
trigger nothing, and no `run()`/`cancel()` is made. -/
def dtorCalls (s : BackfillManager) : List ManagerCall :=
  (s.initializingQ ++ s.activeQ ++ s.snoozingQ).map
    (fun _ => ManagerCall.decrNumActiveSnoozingBackfills)

/-- Predicate picking out successful admission checks in a trace. -/
def isCanAddTrue : ManagerCall → Bool
  | ManagerCall.canAddBackfillToActiveQ true => true
  | _ => false

/-- Predicate picking out admission checks (either answer) in a trace. -/
def isCanAdd : ManagerCall → Bool
  | ManagerCall.canAddBackfillToActiveQ _ => true
  | _ => false

/-- Predicate picking out tracker decrements in a trace. -/
def isDecr : ManagerCall → Bool
  | ManagerCall.decrNumActiveSnoozingBackfills => true
  | _ => false

/-- Predicate picking out `run()` calls in a trace. -/
def isRun : ManagerCall → Bool
  | ManagerCall.runCall _ _ => true
  | _ => false

/-- Predicate picking out `cancel()` calls in a trace. -/
def isCancel : ManagerCall → Bool
  | ManagerCall.cancelCall _ => true
  | _ => false

/-- Number of calls in a trace satisfying `p`. -/
def countCalls (p : ManagerCall → Bool) (es : List ManagerCall) : Nat :=
  (es.filter p).length

/-- The vbucket ids of the `run()` calls of a trace, in order. -/
def runTrace (es : List ManagerCall) : List Nat :=
  es.filterMap (fun e => match e with
    | ManagerCall.runCall v _ => some v
    | _ => none)

/-- Number of admission slots the manager currently holds: one per entry in
`initializingQ`/`activeQ`/`snoozingQ` (`pendingQ` holds none). -/
def balance (s : BackfillManager) : Nat :=
  s.initializingQ.length + s.activeQ.length + s.snoozingQ.length

/-- All four queues empty. -/
def drainedB (s : BackfillManager) : Bool :=
  s.pendingQ.isEmpty && s.initializingQ.isEmpty &&
    s.activeQ.isEmpty && s.snoozingQ.isEmpty

/-- The vbucket ids present in the three slot-holding queues. -/
def heldVbids (s : BackfillManager) : List Nat :=
  (s.initializingQ ++ s.activeQ ++ s.snoozingQ).map DCPBackfillIface.vbid

/-- The vbucket ids present in `pendingQ`. -/
def pendingVbids (s : BackfillManager) : List Nat :=
  s.pendingQ.map DCPBackfillIface.vbid

/-- A backfill whose script is `m` successes then one finish. -/
def mkBackfill (i m : Nat) : DCPBackfillIface :=
  ⟨i, List.replicate m backfill_status_t.backfill_success ++
      [backfill_status_t.backfill_finished]⟩

/-- A queue of such backfills, one per id. -/
def mkQueue (ids : List Nat) (m : Nat) : List DCPBackfillIface :=
  ids.map (fun i => mkBackfill i m)

/-- Expected trace of one full rotation of successful runs, one per id. -/
def succCalls (ids : List Nat) : List ManagerCall :=
  ids.map (fun i => ManagerCall.runCall i backfill_status_t.backfill_success)

/-- Expected trace of one full rotation of finishing runs: each id's run
returns finished and is followed by one tracker decrement. -/
def finishCalls (ids : List Nat) : List ManagerCall :=
  ids.bind (fun i =>
    [ManagerCall.runCall i backfill_status_t.backfill_finished,
     ManagerCall.decrNumActiveSnoozingBackfills])

/-- Expected round-robin trace for backfills of `k` successes then one
finish, starting from the all-admitted state: `k` full success rotations
then one finishing rotation. -/
def rrCalls (ids : List Nat) (k : Nat) : List ManagerCall :=
  (List.replicate k (succCalls ids)).join ++ finishCalls ids

/-- Expected sequential drain trace from the all-active state where each
backfill still has `m` successes then one finish: each backfill runs to
completion before the next starts. -/
def seqDrainCalls (ids : List Nat) (m : Nat) : List ManagerCall :=
  ids.bind (fun i =>
    List.replicate m (ManagerCall.runCall i backfill_status_t.backfill_success) ++
      [ManagerCall.runCall i backfill_status_t.backfill_finished,
       ManagerCall.decrNumActiveSnoozingBackfills])

/-- Expected full sequential trace: one initializing rotation, then each
backfill serviced to completion in schedule order. -/
def seqCalls (ids : List Nat) (k : Nat) : List ManagerCall :=
  succCalls ids ++ seqDrainCalls ids k

/-- Modulus of the `uint16_t` counters of `DcpConnMap`. -/
def UINT16_MOD : Nat := 65536

/-- Backfill-tracking state of `DcpConnMap`
(src/engines/ep/src/dcp/dcpconnmap.h, struct `backfills`): `running` and
`maxRunning` are `uint16_t` counters, embedded as `Nat` kept below 2^16 by
explicit mod; `pendingQueue` is the queue of waiting BackfillManagers
(identified here by `Nat`), with the companion `pendingSet`'s uniqueness
guarantee expressed as a `Nodup` invariant on the queue. -/
structure DcpConnMapBackfills where
  running : Nat
  maxRunning : Nat
  pendingQueue : List Nat
deriving DecidableEq, Repr

/-- Modelled from the spec: `DcpConnMap::canAddBackfillToActiveQ` (its body
in dcpconnmap.cc is not under src/). If `running` is below `maxRunning`,
increment `running` and grant; otherwise deny and register the requesting
manager as a waiter, keeping `pendingQueue` duplicate-free as the
`pendingSet` documentation of dcpconnmap.h requires. -/
def canAddBackfillToActiveQ (s : DcpConnMapBackfills) (mgr : Nat) :
    DcpConnMapBackfills × Bool :=
  if s.running < s.maxRunning then
    ({ s with running := (s.running + 1) % UINT16_MOD }, true)
  else if mgr ∈ s.pendingQueue then (s, false)
  else ({ s with pendingQueue := s.pendingQueue ++ [mgr] }, false)

/-- Modelled from the spec: `DcpConnMap::decrNumRunningBackfills` (its body
in dcpconnmap.cc is not under src/); behaviour follows the `pendingQueue`
documentation in dcpconnmap.h: when managers are waiting, a completing
backfill starts one backfill from the first waiting manager and removes it
from the queue instead of decrementing `running`; otherwise `running` is
decremented by one with `uint16_t` wrap-around. The returned `Option Nat`
is the manager, if any, told to start one backfill. -/
def decrNumRunningBackfills (s : DcpConnMapBackfills) :
    DcpConnMapBackfills × Option Nat :=
  match s.pendingQueue with
  | m :: rest => ({ s with pendingQueue := rest }, some m)
  | [] => ({ s with running := (s.running + (UINT16_MOD - 1)) % UINT16_MOD }, none)

/-- Modelled from the spec: `DcpConnMap::updateMaxRunningBackfills` — the
configured maximum is recomputed from a `size_t` policy input and stored
into the `uint16_t` field, hence truncated mod 2^16. -/
def updateMaxRunningBackfills (s : DcpConnMapBackfills) (v : Nat) :
    DcpConnMapBackfills :=
  { s with maxRunning := v % UINT16_MOD }

/-- Reachable tracker states: freshly constructed (no running backfills, no
waiters), or the result of any tracker operation on a reachable state. -/
inductive Reach : DcpConnMapBackfills → Prop
  | init (maxR : Nat) : Reach ⟨0, maxR % UINT16_MOD, []⟩
  | add (s : DcpConnMapBackfills) (mgr : Nat) :
      Reach s → Reach (canAddBackfillToActiveQ s mgr).1
  | decr (s : DcpConnMapBackfills) :
      Reach s → Reach (decrNumRunningBackfills s).1
  | upd (s : DcpConnMapBackfills) (v : Nat) :
      Reach s → Reach (updateMaxRunningBackfills s v)

/-! ### Basic trace and queue lemmas -/

theorem countCalls_append (p : ManagerCall → Bool) (xs ys : List ManagerCall) :
    countCalls p (xs ++ ys) = countCalls p xs + countCalls p ys := by
  simp [countCalls]

theorem runTrace_append (xs ys : List ManagerCall) :
    runTrace (xs ++ ys) = runTrace xs ++ runTrace ys := by
  simp [runTrace]

theorem mkQueue_cons (i : Nat) (l : List Nat) (m : Nat) :
    mkQueue (i :: l) m = mkBackfill i m :: mkQueue l m := rfl

theorem mkQueue_append (l1 l2 : List Nat) (m : Nat) :
    mkQueue (l1 ++ l2) m = mkQueue l1 m ++ mkQueue l2 m := by
  simp [mkQueue]

/-! ### Slot accounting: one step preserves
`successful admissions = decrements + held slots` -/

theorem dispatchOutcome_balance (s : BackfillManager) (b : DCPBackfillIface)
    (t : Bool) :
    balance (dispatchOutcome s b t).1 + countCalls isDecr (dispatchOutcome s b t).2
        = balance s + 1 ∧
    countCalls isCanAddTrue (dispatchOutcome s b t).2 = 0 ∧
    countCalls isCanAdd (dispatchOutcome s b t).2 = 0 ∧
    countCalls isRun (dispatchOutcome s b t).2 = 1 ∧
    countCalls isCancel (dispatchOutcome s b t).2 = 0 ∧
    (dispatchOutcome s b t).1.pendingQ = s.pendingQ := by
  obtain ⟨v, script⟩ := b
  cases script with
  | nil =>
    simp [dispatchOutcome, runBackfill, countCalls, isDecr, isCanAddTrue,
      isCanAdd, isRun, isCancel, balance]
  | cons st tail =>
    cases st <;> cases t <;>
      simp [dispatchOutcome, runBackfill, countCalls, isDecr, isCanAddTrue,
        isCanAdd, isRun, isCancel, balance] <;> omega

theorem movePending_balance (s : BackfillManager) (ok : Bool) :
    balance (movePendingToInitializing s ok).1
        = balance s + countCalls isCanAddTrue (movePendingToInitializing s ok).2 ∧
    countCalls isDecr (movePendingToInitializing s ok).2 = 0 ∧
    countCalls isRun (movePendingToInitializing s ok).2 = 0 ∧
    countCalls isCancel (movePendingToInitializing s ok).2 = 0 ∧
    countCalls isCanAdd (movePendingToInitializing s ok).2
        = (if s.pendingQ.isEmpty then 0 else 1) := by
  obtain ⟨pq, iq, aq, sq, o⟩ := s
  cases pq <;> cases ok <;>
    simp [movePendingToInitializing, countCalls, isCanAddTrue, isCanAdd,
      isDecr, isRun, isCancel, balance] <;> omega

theorem runOne_balance (s : BackfillManager) :
    balance (runOne s).1 + countCalls isDecr (runOne s).2 = balance s ∧
    countCalls isCanAddTrue (runOne s).2 = 0 ∧
    countCalls isCanAdd (runOne s).2 = 0 ∧
    countCalls isRun (runOne s).2 ≤ 1 ∧
    countCalls isCancel (runOne s).2 = 0 ∧
    (runOne s).1.pendingQ = s.pendingQ := by
  obtain ⟨pq, iq, aq, sq, o⟩ := s
  cases iq with
  | cons b rest =>
    have h := dispatchOutcome_balance ⟨pq, rest, aq, sq, o⟩ b false
    simp only [runOne]
    obtain ⟨h1, h2, h3, h4, h5, h6⟩ := h
    refine ⟨?_, h2, h3, by omega, h5, h6⟩
    simp [balance] at h1 ⊢
    omega
  | nil =>
    cases aq with
    | cons b rest =>
      cases o <;>
        · first
          | (have h := dispatchOutcome_balance ⟨pq, [], rest, sq,
                ScheduleOrder.RoundRobin⟩ b false
             simp only [runOne]
             obtain ⟨h1, h2, h3, h4, h5, h6⟩ := h
             refine ⟨?_, h2, h3, by omega, h5, h6⟩
             simp [balance] at h1 ⊢
             omega)
          | (have h := dispatchOutcome_balance ⟨pq, [], rest, sq,
                ScheduleOrder.Sequential⟩ b true
             simp only [runOne]
             obtain ⟨h1, h2, h3, h4, h5, h6⟩ := h
             refine ⟨?_, h2, h3, by omega, h5, h6⟩
             simp [balance] at h1 ⊢
             omega)
    | nil =>
      cases sq <;>
        simp [runOne, countCalls, isDecr, isCanAddTrue, isCanAdd, isRun,
          isCancel, balance] <;> omega

theorem backfill_balance (s : BackfillManager) (ok : Bool) :
    balance (backfill s ok).1 + countCalls isDecr (backfill s ok).2
        = balance s + countCalls isCanAddTrue (backfill s ok).2 ∧
    countCalls isCancel (backfill s ok).2 = 0 := by
  have h1 := movePending_balance s ok
  have h2 := runOne_balance (movePendingToInitializing s ok).1
  simp only [backfill, countCalls_append]
  obtain ⟨a1, a2, a3, a4, a5⟩ := h1
  obtain ⟨b1, b2, b3, b4, b5, b6⟩ := h2
  constructor <;> omega

theorem schedule_balance (s : BackfillManager) (b : DCPBackfillIface) (ok : Bool) :
    balance (schedule s b ok).1 + countCalls isDecr (schedule s b ok).2.2
        = balance s + countCalls isCanAddTrue (schedule s b ok).2.2 ∧
    countCalls isCancel (schedule s b ok).2.2 = 0 := by
  cases ok <;>
    simp [schedule, countCalls, balance, isDecr, isCanAddTrue, isCancel] <;> omega

theorem runOps_balance : ∀ (ops : List ManagerOp) (s : BackfillManager),
    balance (runOps s ops).1 + countCalls isDecr (runOps s ops).2
        = balance s + countCalls isCanAddTrue (runOps s ops).2 ∧
    countCalls isCancel (runOps s ops).2 = 0
  | [], s => by simp [runOps, countCalls]
  | ManagerOp.scheduleOp b ok :: ops, s => by
    have h1 := schedule_balance s b ok
    have h2 := runOps_balance ops (schedule s b ok).1
    simp only [runOps, countCalls_append]
    obtain ⟨x1, x2⟩ := h1
    obtain ⟨y1, y2⟩ := h2
    constructor <;> omega
  | ManagerOp.backfillOp ok :: ops, s => by
    have h1 := backfill_balance s ok
    have h2 := runOps_balance ops (backfill s ok).1
    simp only [runOps, countCalls_append]
    obtain ⟨x1, x2⟩ := h1
    obtain ⟨y1, y2⟩ := h2
    constructor <;> omega

theorem countCalls_replicate (n : Nat) (c : ManagerCall) (p : ManagerCall → Bool) :
    countCalls p (List.replicate n c) = if p c then n else 0 := by
  induction n with
  | zero => simp [countCalls]
  | succ n ih =>
    simp only [List.replicate_succ, countCalls, List.filter_cons] at ih ⊢
    by_cases hp : p c <;> simp [hp] at ih ⊢ <;> omega

theorem dtorCalls_counts (s : BackfillManager) :
    countCalls isDecr (dtorCalls s) = balance s ∧
    countCalls isRun (dtorCalls s) = 0 ∧
    countCalls isCancel (dtorCalls s) = 0 ∧
    (dtorCalls s).length = balance s := by
  refine ⟨?_, ?_, ?_, ?_⟩ <;>
    simp [dtorCalls, balance, countCalls_replicate, isDecr, isRun, isCancel] <;>
      omega

/-- C1: over a BackfillManager's full lifetime — any interleaving of
schedule calls and backfill steps starting from a fresh manager, followed
by destruction — the total number of `decrNumActiveSnoozingBackfills`
calls (those emitted while stepping plus those emitted by the destructor
for entries still queued in initializing/active/snoozing) equals the total
number of successful `canAddBackfillToActiveQ` admission checks. -/
theorem exactly_once_release (o : ScheduleOrder) (ops : List ManagerOp) :
    countCalls isDecr
        ((runOps (emptyBM o) ops).2 ++ dtorCalls (runOps (emptyBM o) ops).1)
      = countCalls isCanAddTrue (runOps (emptyBM o) ops).2 := by
  have h := runOps_balance ops (emptyBM o)
  have hd := dtorCalls_counts (runOps (emptyBM o) ops).1
  rw [countCalls_append]
  have hb : balance (emptyBM o) = 0 := rfl
  obtain ⟨h1, h2⟩ := h
  obtain ⟨d1, d2, d3, d4⟩ := hd
  omega

/-- C8: destruction is pure release bookkeeping. For every manager state
reached after any lifetime, the destructor trace contains no `run()` call
and no `cancel()` call; it consists of exactly one tracker decrement per
Backfill still held in initializingQ/activeQ/snoozingQ and nothing else
(in particular nothing for pendingQ entries). -/
theorem dtor_frame (o : ScheduleOrder) (ops : List ManagerOp) :
    countCalls isRun (dtorCalls (runOps (emptyBM o) ops).1) = 0 ∧
    countCalls isCancel (dtorCalls (runOps (emptyBM o) ops).1) = 0 ∧
    countCalls isDecr (dtorCalls (runOps (emptyBM o) ops).1)
        = balance (runOps (emptyBM o) ops).1 ∧
    (dtorCalls (runOps (emptyBM o) ops).1).length
        = balance (runOps (emptyBM o) ops).1 := by
  have hd := dtorCalls_counts (runOps (emptyBM o) ops).1
  exact ⟨hd.2.1, hd.2.2.1, hd.1, hd.2.2.2⟩

/-! ### Per-step shape: one admission attempt, one run -/

theorem movePending_false (s : BackfillManager) :
    (movePendingToInitializing s false).1 = s := by
  obtain ⟨pq, iq, aq, sq, o⟩ := s
  cases pq <;> simp [movePendingToInitializing]

theorem runOne_run_of_init (s : BackfillManager) (h : s.initializingQ ≠ []) :
    countCalls isRun (runOne s).2 = 1 := by
  obtain ⟨pq, iq, aq, sq, o⟩ := s
  cases iq with
  | nil => simp at h
  | cons b rest =>
    have hd := dispatchOutcome_balance ⟨pq, rest, aq, sq, o⟩ b false
    simpa [runOne] using hd.2.2.2.1

/-- C6: each `backfill()` step makes at most one admission attempt and at
most one `run()` call; the admission attempt happens exactly when pendingQ
is non-empty at the start of the step (even after repeated denials), and a
denied attempt does not stop the same step from running the front of
`initializingQ` when one is already admitted. -/
theorem step_shape (s : BackfillManager) (ok : Bool) :
    countCalls isCanAdd (backfill s ok).2 ≤ 1 ∧
    countCalls isCanAdd (backfill s ok).2
        = (if s.pendingQ.isEmpty then 0 else 1) ∧
    countCalls isRun (backfill s ok).2 ≤ 1 ∧
    (ok = false → s.pendingQ ≠ [] → s.initializingQ ≠ [] →
      countCalls isRun (backfill s ok).2 = 1) := by
  have h1 := movePending_balance s ok
  have h2 := runOne_balance (movePendingToInitializing s ok).1
  obtain ⟨a1, a2, a3, a4, a5⟩ := h1
  obtain ⟨b1, b2, b3, b4, b5, b6⟩ := h2
  simp only [backfill, countCalls_append]
  refine ⟨?_, ?_, by omega, ?_⟩
  · by_cases hp : s.pendingQ.isEmpty <;> simp [hp] at a5 ⊢ <;> omega
  · by_cases hp : s.pendingQ.isEmpty <;> simp [hp] at a5 ⊢ <;> omega
  rintro rfl hp hi
  rw [movePending_false s] at b4 ⊢
  have hr := runOne_run_of_init s hi
  omega

/-! ### Denied work stays pending and is never run -/

theorem runOne_frame (s : BackfillManager) :
    (runOne s).1.pendingQ = s.pendingQ ∧
    (∀ v, v ∈ heldVbids (runOne s).1 → v ∈ heldVbids s) ∧
    (∀ v, v ∈ runTrace (runOne s).2 → v ∈ heldVbids s) := by
  obtain ⟨pq, iq, aq, sq, o⟩ := s
  cases iq with
  | cons b rest =>
    obtain ⟨v0, script⟩ := b
    cases script with
    | nil =>
      simp [runOne, dispatchOutcome, runBackfill, heldVbids, runTrace] <;> aesop
    | cons st tail =>
      cases st <;>
        simp [runOne, dispatchOutcome, runBackfill, heldVbids, runTrace] <;> aesop
  | nil =>
    cases aq with
    | cons b rest =>
      obtain ⟨v0, script⟩ := b
      cases script with
      | nil =>
        cases o <;>
          simp [runOne, dispatchOutcome, runBackfill, heldVbids, runTrace] <;> aesop
      | cons st tail =>
        cases o <;> cases st <;>
          simp [runOne, dispatchOutcome, runBackfill, heldVbids, runTrace] <;> aesop
    | nil =>
      cases sq <;>
        simp [runOne, heldVbids, runTrace] <;> aesop

theorem runTrace_movePending (s : BackfillManager) (ok : Bool) :
    runTrace (movePendingToInitializing s ok).2 = [] := by
  obtain ⟨pq, iq, aq, sq, o⟩ := s
  cases pq <;> cases ok <;> simp [movePendingToInitializing, runTrace]

theorem backfill_false_pendingStuck (s : BackfillManager) (v : Nat)
    (h1 : v ∈ pendingVbids s) (h2 : v ∉ heldVbids s) :
    v ∈ pendingVbids (backfill s false).1 ∧
    v ∉ heldVbids (backfill s false).1 ∧
    v ∉ runTrace (backfill s false).2 := by
  have hm := movePending_false s
  obtain ⟨f1, f2, f3⟩ := runOne_frame s
  simp only [backfill, hm]
  refine ⟨?_, ?_, ?_⟩
  · simpa [pendingVbids, f1] using h1
  · intro hv
    exact h2 (f2 v hv)
  · rw [runTrace_append, runTrace_movePending]
    simp only [List.nil_append]
    intro hv
    exact h2 (f3 v hv)

theorem driveWith_false_pendingStuck :
    ∀ (answers : List Bool) (s : BackfillManager) (v : Nat),
    (∀ a ∈ answers, a = false) → v ∈ pendingVbids s → v ∉ heldVbids s →
    v ∈ pendingVbids (driveWith s answers).1 ∧
    v ∉ heldVbids (driveWith s answers).1 ∧
    v ∉ runTrace (driveWith s answers).2
  | [], s, v => by
    intro _ h1 h2
    exact ⟨by simpa [driveWith] using h1, by simpa [driveWith] using h2,
      by simp [driveWith, runTrace]⟩
  | a :: answers, s, v => by
    intro hall h1 h2
    have ha : a = false := hall a (by simp)
    subst ha
    obtain ⟨p1, p2, p3⟩ := backfill_false_pendingStuck s v h1 h2
    obtain ⟨q1, q2, q3⟩ := driveWith_false_pendingStuck answers (backfill s false).1 v
      (fun x hx => hall x (by simp [hx])) p1 p2
    refine ⟨by simpa [driveWith] using q1, by simpa [driveWith] using q2, ?_⟩
    simp only [driveWith, runTrace_append, List.mem_append]
    rintro (hv | hv)
    · exact p3 hv
    · exact q3 hv

/-- C4: `schedule` makes exactly one admission check and nothing else: on a
granted check the backfill goes to the back of `initializingQ` and the
result is `Active`; on a denied check it goes to the back of `pendingQ` and
the result is `Pending`; and a backfill sitting in `pendingQ` is never
passed to `run()` (and stays in `pendingQ`) across any sequence of steps
whose admission checks are all denied. -/
theorem schedule_contract :
    (∀ (s : BackfillManager) (b : DCPBackfillIface),
      schedule s b true
        = ({ s with initializingQ := s.initializingQ ++ [b] },
            ScheduleResult.Active, [ManagerCall.canAddBackfillToActiveQ true])) ∧
    (∀ (s : BackfillManager) (b : DCPBackfillIface),
      schedule s b false
        = ({ s with pendingQ := s.pendingQ ++ [b] },
            ScheduleResult.Pending, [ManagerCall.canAddBackfillToActiveQ false])) ∧
    (∀ (s : BackfillManager) (v : Nat) (answers : List Bool),
      (∀ a ∈ answers, a = false) → v ∈ pendingVbids s → v ∉ heldVbids s →
        v ∈ pendingVbids (driveWith s answers).1 ∧
        v ∉ runTrace (driveWith s answers).2) := by
  refine ⟨fun s b => by simp [schedule], fun s b => by simp [schedule],
    fun s v answers hall h1 h2 => ?_⟩
  obtain ⟨q1, q2, q3⟩ := driveWith_false_pendingStuck answers s v hall h1 h2
  exact ⟨q1, q3⟩

/-- Witness for C4: a backfill denied at schedule time stays in pendingQ
and is never run across two denied steps. -/
theorem schedule_contract_witness :
    0 ∈ pendingVbids (driveWith (schedule (emptyBM ScheduleOrder.RoundRobin)
        (mkBackfill 0 1) false).1 [false, false]).1 ∧
    0 ∉ runTrace (driveWith (schedule (emptyBM ScheduleOrder.RoundRobin)
        (mkBackfill 0 1) false).1 [false, false]).2 :=
  schedule_contract.2.2 _ 0 [false, false] (by decide) (by decide) (by decide)

/-- Witness for C6: with a denied admission check and an already-admitted
backfill in initializingQ, the same step still performs exactly one run. -/
theorem step_shape_witness :
    countCalls isCanAdd (backfill ⟨[mkBackfill 1 1], [mkBackfill 0 1], [], [],
        ScheduleOrder.RoundRobin⟩ false).2 = 1 ∧
    countCalls isRun (backfill ⟨[mkBackfill 1 1], [mkBackfill 0 1], [], [],
        ScheduleOrder.RoundRobin⟩ false).2 = 1 := by
  have h := step_shape ⟨[mkBackfill 1 1], [mkBackfill 0 1], [], [],
    ScheduleOrder.RoundRobin⟩ false
  exact ⟨by simpa using h.2.1,
    h.2.2.2 rfl (by decide) (by decide)⟩

/-! ### Drain computations for the RoundRobin and Sequential scenarios -/

theorem drive_add : ∀ (a : Nat) (s : BackfillManager) (b : Nat),
    drive s (a + b)
      = ((drive (drive s a).1 b).1, (drive s a).2 ++ (drive (drive s a).1 b).2)
  | 0, s, b => by simp [drive]
  | n + 1, s, b => by
    have h : n + 1 + b = (n + b) + 1 := by omega
    rw [h]
    simp only [drive]
    rw [drive_add n]
    simp [List.append_assoc]

theorem scheduleAll_admits (o : ScheduleOrder) :
    ∀ (bs : List DCPBackfillIface) (s : BackfillManager),
    scheduleAll s bs
      = ({ s with initializingQ := s.initializingQ ++ bs },
          List.replicate bs.length ScheduleResult.Active,
          List.replicate bs.length (ManagerCall.canAddBackfillToActiveQ true))
  | [], s => by simp [scheduleAll]
  | b :: bs, s => by
    simp only [scheduleAll, schedule, if_pos]
    rw [scheduleAll_admits o bs]
    simp [List.replicate_succ]

theorem drive_initializing (k : Nat) (o : ScheduleOrder) :
    ∀ (front : List Nat) (act : List DCPBackfillIface),
    drive ⟨[], mkQueue front (k + 1), act, [], o⟩ front.length
      = (⟨[], [], act ++ mkQueue front k, [], o⟩, succCalls front)
  | [], act => by simp [drive, mkQueue, succCalls]
  | i :: front, act => by
    have step : backfill ⟨[], mkQueue (i :: front) (k + 1), act, [], o⟩ true
        = (⟨[], mkQueue front (k + 1), act ++ [mkBackfill i k], [], o⟩,
           [ManagerCall.runCall i backfill_status_t.backfill_success]) := by
      simp [backfill, movePendingToInitializing, runOne, dispatchOutcome,
        runBackfill, mkQueue, mkBackfill, List.replicate_succ]
    simp only [List.length_cons, drive, step]
    rw [drive_initializing k o front (act ++ [mkBackfill i k])]
    simp [succCalls, mkQueue, List.append_assoc]

theorem drive_init_finish (o : ScheduleOrder) :
    ∀ (ids : List Nat) (act : List DCPBackfillIface),
    drive ⟨[], mkQueue ids 0, act, [], o⟩ ids.length
      = (⟨[], [], act, [], o⟩, finishCalls ids)
  | [], act => by simp [drive, mkQueue, finishCalls]
  | i :: ids, act => by
    have step : backfill ⟨[], mkQueue (i :: ids) 0, act, [], o⟩ true
        = (⟨[], mkQueue ids 0, act, [], o⟩,
           [ManagerCall.runCall i backfill_status_t.backfill_finished,
            ManagerCall.decrNumActiveSnoozingBackfills]) := by
      simp [backfill, movePendingToInitializing, runOne, dispatchOutcome,
        runBackfill, mkQueue, mkBackfill]
    simp only [List.length_cons, drive, step]
    rw [drive_init_finish o ids act]
    simp [finishCalls]

theorem drive_rotateRR (k : Nat) :
    ∀ (front back : List Nat),
    drive ⟨[], [], mkQueue front (k + 1) ++ mkQueue back k, [],
        ScheduleOrder.RoundRobin⟩ front.length
      = (⟨[], [], mkQueue back k ++ mkQueue front k, [],
          ScheduleOrder.RoundRobin⟩, succCalls front)
  | [], back => by simp [drive, mkQueue, succCalls]
  | i :: front, back => by
    have step : backfill ⟨[], [], mkQueue (i :: front) (k + 1) ++ mkQueue back k,
        [], ScheduleOrder.RoundRobin⟩ true
        = (⟨[], [], mkQueue front (k + 1) ++ mkQueue (back ++ [i]) k, [],
            ScheduleOrder.RoundRobin⟩,
           [ManagerCall.runCall i backfill_status_t.backfill_success]) := by
      simp [backfill, movePendingToInitializing, runOne, dispatchOutcome,
        runBackfill, mkQueue, mkBackfill, List.replicate_succ]
    simp only [List.length_cons, drive, step]
    rw [drive_rotateRR k front (back ++ [i])]
    simp [succCalls, mkQueue, List.append_assoc]

theorem drive_activeRR_finish :
    ∀ (ids : List Nat),
    drive ⟨[], [], mkQueue ids 0, [], ScheduleOrder.RoundRobin⟩ ids.length
      = (emptyBM ScheduleOrder.RoundRobin, finishCalls ids)
  | [] => by simp [drive, mkQueue, finishCalls, emptyBM]
  | i :: ids => by
    have step : backfill ⟨[], [], mkQueue (i :: ids) 0, [],
        ScheduleOrder.RoundRobin⟩ true
        = (⟨[], [], mkQueue ids 0, [], ScheduleOrder.RoundRobin⟩,
           [ManagerCall.runCall i backfill_status_t.backfill_finished,
            ManagerCall.decrNumActiveSnoozingBackfills]) := by
      simp [backfill, movePendingToInitializing, runOne, dispatchOutcome,
        runBackfill, mkQueue, mkBackfill]
    simp only [List.length_cons, drive, step]
    rw [drive_activeRR_finish ids]
    simp [finishCalls]

theorem drive_rrDrain : ∀ (k : Nat) (ids : List Nat),
    drive ⟨[], [], mkQueue ids k, [], ScheduleOrder.RoundRobin⟩
        (ids.length * (k + 1))
      = (emptyBM ScheduleOrder.RoundRobin, rrCalls ids k)
  | 0, ids => by
    simpa [rrCalls] using drive_activeRR_finish ids
  | k + 1, ids => by
    have hsplit : ids.length * (k + 2) = ids.length + ids.length * (k + 1) := by
      ring
    rw [hsplit, drive_add]
    have h1 : drive ⟨[], [], mkQueue ids (k + 1), [],
        ScheduleOrder.RoundRobin⟩ ids.length
        = (⟨[], [], mkQueue ids k, [], ScheduleOrder.RoundRobin⟩,
           succCalls ids) := by
      have := drive_rotateRR k ids []
      simpa [mkQueue] using this
    rw [h1]
    rw [drive_rrDrain k ids]
    simp [rrCalls, List.replicate_succ, List.append_assoc]

theorem drive_seqFront : ∀ (m : Nat) (i : Nat) (rest : List DCPBackfillIface),
    drive ⟨[], [], mkBackfill i m :: rest, [], ScheduleOrder.Sequential⟩ (m + 1)
      = (⟨[], [], rest, [], ScheduleOrder.Sequential⟩,
         List.replicate m
             (ManagerCall.runCall i backfill_status_t.backfill_success) ++
           [ManagerCall.runCall i backfill_status_t.backfill_finished,
            ManagerCall.decrNumActiveSnoozingBackfills])
  | 0, i, rest => by
    simp [drive, backfill, movePendingToInitializing, runOne, dispatchOutcome,
      runBackfill, mkBackfill]
  | m + 1, i, rest => by
    have hsplit : m + 1 + 1 = 1 + (m + 1) := by omega
    rw [hsplit, drive_add]
    have step1 : drive ⟨[], [], mkBackfill i (m + 1) :: rest, [],
        ScheduleOrder.Sequential⟩ 1
        = (⟨[], [], mkBackfill i m :: rest, [], ScheduleOrder.Sequential⟩,
           [ManagerCall.runCall i backfill_status_t.backfill_success]) := by
      simp [drive, backfill, movePendingToInitializing, runOne, dispatchOutcome,
        runBackfill, mkBackfill, List.replicate_succ]
    rw [step1, drive_seqFront m i rest]
    simp [List.replicate_succ]

theorem drive_seqDrain (m : Nat) : ∀ (ids : List Nat),
    drive ⟨[], [], mkQueue ids m, [], ScheduleOrder.Sequential⟩
        (ids.length * (m + 1))
      = (emptyBM ScheduleOrder.Sequential, seqDrainCalls ids m)
  | [] => by simp [drive, mkQueue, seqDrainCalls, emptyBM]
  | i :: ids => by
    have hsplit : (i :: ids).length * (m + 1) = (m + 1) + ids.length * (m + 1) := by
      simp [List.length_cons]
      ring
    rw [hsplit, drive_add, mkQueue_cons, drive_seqFront m i (mkQueue ids m),
      drive_seqDrain m ids]
    simp [seqDrainCalls, List.append_assoc]

/-! ### Expected-trace bookkeeping -/

theorem finishCalls_cons (i : Nat) (ids : List Nat) :
    finishCalls (i :: ids)
      = [ManagerCall.runCall i backfill_status_t.backfill_finished,
         ManagerCall.decrNumActiveSnoozingBackfills] ++ finishCalls ids := by
  simp [finishCalls]

theorem seqDrainCalls_cons (i : Nat) (ids : List Nat) (m : Nat) :
    seqDrainCalls (i :: ids) m
      = (List.replicate m
            (ManagerCall.runCall i backfill_status_t.backfill_success) ++
          [ManagerCall.runCall i backfill_status_t.backfill_finished,
           ManagerCall.decrNumActiveSnoozingBackfills]) ++ seqDrainCalls ids m := by
  simp [seqDrainCalls]

theorem runTrace_cons_run (v : Nat) (o : backfill_status_t)
    (es : List ManagerCall) :
    runTrace (ManagerCall.runCall v o :: es) = v :: runTrace es := by
  simp [runTrace, List.filterMap_cons]

theorem runTrace_cons_decr (es : List ManagerCall) :
    runTrace (ManagerCall.decrNumActiveSnoozingBackfills :: es)
      = runTrace es := by
  simp [runTrace, List.filterMap_cons]

theorem rrCalls_succ (ids : List Nat) (k : Nat) :
    rrCalls ids (k + 1) = succCalls ids ++ rrCalls ids k := by
  simp [rrCalls, List.replicate_succ, List.append_assoc]

theorem runTrace_succCalls (ids : List Nat) : runTrace (succCalls ids) = ids := by
  induction ids with
  | nil => simp [runTrace, succCalls]
  | cons i ids ih => simpa [runTrace, succCalls, List.filterMap_cons] using ih

theorem runTrace_finishCalls (ids : List Nat) : runTrace (finishCalls ids) = ids := by
  induction ids with
  | nil => simp [runTrace, finishCalls]
  | cons i ids ih => simpa [runTrace, finishCalls, List.filterMap_cons] using ih

theorem runTrace_rrCalls (ids : List Nat) (k : Nat) :
    runTrace (rrCalls ids k) = (List.replicate (k + 1) ids).join := by
  induction k with
  | zero => simp [rrCalls, runTrace_finishCalls]
  | succ k ih =>
    rw [rrCalls_succ, runTrace_append, runTrace_succCalls, ih]
    simp [List.replicate_succ]

theorem runTrace_replicate_block (m : Nat) (i : Nat) :
    runTrace (List.replicate m
        (ManagerCall.runCall i backfill_status_t.backfill_success) ++
        [ManagerCall.runCall i backfill_status_t.backfill_finished,
         ManagerCall.decrNumActiveSnoozingBackfills])
      = List.replicate (m + 1) i := by
  induction m with
  | zero => simp [runTrace, runTrace_cons_run, runTrace_cons_decr]
  | succ m ihm =>
    rw [List.replicate_succ, List.cons_append, runTrace_cons_run, ihm,
      ← List.replicate_succ]

theorem runTrace_seqDrainCalls (m : Nat) : ∀ (ids : List Nat),
    runTrace (seqDrainCalls ids m) = ids.bind (fun i => List.replicate (m + 1) i)
  | [] => by simp [runTrace, seqDrainCalls]
  | i :: ids => by
    rw [seqDrainCalls_cons, runTrace_append, runTrace_replicate_block,
      runTrace_seqDrainCalls m ids]
    simp

theorem runTrace_seqCalls (ids : List Nat) (k : Nat) :
    runTrace (seqCalls ids k)
      = ids ++ ids.bind (fun i => List.replicate (k + 1) i) := by
  rw [seqCalls, runTrace_append, runTrace_succCalls, runTrace_seqDrainCalls]

theorem countRun_succCalls (ids : List Nat) :
    countCalls isRun (succCalls ids) = ids.length := by
  induction ids with
  | nil => simp [countCalls, succCalls]
  | cons i ids ih =>
    simpa [countCalls, succCalls, List.filter_cons, isRun] using ih

theorem countRun_finishCalls (ids : List Nat) :
    countCalls isRun (finishCalls ids) = ids.length := by
  induction ids with
  | nil => simp [countCalls, finishCalls]
  | cons i ids ih =>
    rw [finishCalls_cons, countCalls_append, ih]
    have h2 : countCalls isRun
        [ManagerCall.runCall i backfill_status_t.backfill_finished,
         ManagerCall.decrNumActiveSnoozingBackfills] = 1 := rfl
    rw [h2]
    simp [List.length_cons]
    omega

theorem countRun_rrCalls (ids : List Nat) (k : Nat) :
    countCalls isRun (rrCalls ids k) = ids.length * (k + 1) := by
  induction k with
  | zero => simpa [rrCalls, countCalls] using countRun_finishCalls ids
  | succ k ih =>
    rw [rrCalls_succ, countCalls_append, countRun_succCalls, ih]
    ring

theorem countRun_seqDrainCalls (m : Nat) : ∀ (ids : List Nat),
    countCalls isRun (seqDrainCalls ids m) = ids.length * (m + 1)
  | [] => by simp [countCalls, seqDrainCalls]
  | i :: ids => by
    rw [seqDrainCalls_cons, countCalls_append, countCalls_append,
      countRun_seqDrainCalls m ids, countCalls_replicate]
    have h2 : countCalls isRun
        [ManagerCall.runCall i backfill_status_t.backfill_finished,
         ManagerCall.decrNumActiveSnoozingBackfills] = 1 := rfl
    rw [h2]
    simp [isRun, List.length_cons]
    ring

theorem countRun_seqCalls (ids : List Nat) (k : Nat) :
    countCalls isRun (seqCalls ids k)
      = ids.length + ids.length * (k + 1) := by
  rw [seqCalls, countCalls_append, countRun_succCalls, countRun_seqDrainCalls]

/-! ### Drained states and step-count minimality -/

theorem backfill_drained (s : BackfillManager) (h : drainedB s = true) (ok : Bool) :
    backfill s ok = (s, []) := by
  obtain ⟨pq, iq, aq, sq, o⟩ := s
  cases pq <;> cases iq <;> cases aq <;> cases sq <;>
    first
      | (cases ok <;> rfl)
      | simp [drainedB] at h

theorem drive_drained (s : BackfillManager) (h : drainedB s = true) :
    ∀ n, drive s n = (s, [])
  | 0 => by simp [drive]
  | n + 1 => by
    simp only [drive, backfill_drained s h]
    rw [drive_drained s h n]
    simp

theorem backfill_run_le_one (s : BackfillManager) (ok : Bool) :
    countCalls isRun (backfill s ok).2 ≤ 1 := by
  have a := movePending_balance s ok
  have b := runOne_balance (movePendingToInitializing s ok).1
  simp only [backfill, countCalls_append]
  obtain ⟨a1, a2, a3, a4, a5⟩ := a
  obtain ⟨b1, b2, b3, b4, b5, b6⟩ := b
  omega

theorem countRun_drive_le (s : BackfillManager) : ∀ (n : Nat),
    countCalls isRun (drive s n).2 ≤ n
  | 0 => by simp [drive, countCalls]
  | n + 1 => by
    simp only [drive, countCalls_append]
    have h1 := backfill_run_le_one s true
    have h2 := countRun_drive_le (backfill s true).1 n
    omega

theorem drive_drained_lower (s : BackfillManager) (T : Nat)
    (hcount : countCalls isRun (drive s T).2 = T) :
    ∀ j, drainedB (drive s j).1 = true → T ≤ j := by
  intro j hj
  by_contra hlt
  push_neg at hlt
  have hsplit : T = j + (T - j) := by omega
  have hadd := drive_add j s (T - j)
  rw [← hsplit] at hadd
  rw [drive_drained (drive s j).1 hj (T - j)] at hadd
  have hsnd : (drive s T).2 = (drive s j).2 := by
    rw [hadd]
    simp
  have hle := countRun_drive_le s j
  rw [hsnd] at hcount
  omega

theorem scheduled_state (o : ScheduleOrder) (bs : List DCPBackfillIface) :
    (scheduleAll (emptyBM o) bs).1 = ⟨[], bs, [], [], o⟩ := by
  rw [scheduleAll_admits o bs (emptyBM o)]
  simp [emptyBM]

theorem scheduled_results (o : ScheduleOrder) (bs : List DCPBackfillIface) :
    (scheduleAll (emptyBM o) bs).2.1
      = List.replicate bs.length ScheduleResult.Active := by
  rw [scheduleAll_admits o bs (emptyBM o)]

theorem drive_scheduledRR (N k : Nat) :
    drive ⟨[], mkQueue (List.range N) k, [], [], ScheduleOrder.RoundRobin⟩
        (N * (k + 1))
      = (emptyBM ScheduleOrder.RoundRobin, rrCalls (List.range N) k) := by
  cases k with
  | zero =>
    have h := drive_init_finish ScheduleOrder.RoundRobin (List.range N) []
    rw [List.length_range] at h
    simpa [rrCalls, emptyBM] using h
  | succ k =>
    have hsplit : N * (k + 2) = N + N * (k + 1) := by ring
    rw [hsplit, drive_add]
    have h1 := drive_initializing k ScheduleOrder.RoundRobin (List.range N) []
    rw [List.length_range] at h1
    rw [h1]
    simp only [List.nil_append]
    have h2 := drive_rrDrain k (List.range N)
    rw [List.length_range] at h2
    rw [h2, rrCalls_succ]

theorem drive_scheduledSeq (N k : Nat) :
    drive ⟨[], mkQueue (List.range N) (k + 1), [], [], ScheduleOrder.Sequential⟩
        (N + N * (k + 1))
      = (emptyBM ScheduleOrder.Sequential, seqCalls (List.range N) k) := by
  rw [drive_add]
  have h1 := drive_initializing k ScheduleOrder.Sequential (List.range N) []
  rw [List.length_range] at h1
  rw [h1]
  simp only [List.nil_append]
  have h2 := drive_seqDrain k (List.range N)
  rw [List.length_range] at h2
  rw [h2]
  rw [seqCalls]

/-- C2 (amended): with RoundRobin order, N admitted Backfills whose run()
returns Success exactly k times then Finished are visited one full rotation
at a time — run trace = the list 0..N-1 repeated k+1 times, the first
rotation being the initializing runs — and draining takes exactly
N·(k+1) step() calls (not N + N·k + N): the N initializing runs already
consume the first Success of each Backfill. For N = 3, k = 1 the run order
is 0,1,2,0,1,2 and draining takes exactly 6 steps. -/
theorem roundRobin_fairness (N k : Nat) :
    (scheduleAll (emptyBM ScheduleOrder.RoundRobin)
        (mkQueue (List.range N) k)).2.1
        = List.replicate N ScheduleResult.Active ∧
    drive (scheduleAll (emptyBM ScheduleOrder.RoundRobin)
        (mkQueue (List.range N) k)).1 (N * (k + 1))
        = (emptyBM ScheduleOrder.RoundRobin, rrCalls (List.range N) k) ∧
    runTrace (rrCalls (List.range N) k)
        = (List.replicate (k + 1) (List.range N)).join ∧
    (∀ j, drainedB (drive (scheduleAll (emptyBM ScheduleOrder.RoundRobin)
        (mkQueue (List.range N) k)).1 j).1 = true → N * (k + 1) ≤ j) := by
  have hstart := scheduled_state ScheduleOrder.RoundRobin
    (mkQueue (List.range N) k)
  refine ⟨?_, ?_, runTrace_rrCalls (List.range N) k, ?_⟩
  · rw [scheduled_results]
    simp [mkQueue]
  · rw [hstart]
    exact drive_scheduledRR N k
  · rw [hstart]
    apply drive_drained_lower
    rw [drive_scheduledRR N k]
    have := countRun_rrCalls (List.range N) k
    simpa [List.length_range] using this

/-- Witness for C2 (amended), at the unit test's N = 3, k = 1: the run
order is 0,1,2,0,1,2, 6 steps drain everything, and no fewer do. -/
theorem roundRobin_fairness_witness :
    runTrace (drive (scheduleAll (emptyBM ScheduleOrder.RoundRobin)
        (mkQueue (List.range 3) 1)).1 6).2 = [0, 1, 2, 0, 1, 2] ∧
    drainedB (drive (scheduleAll (emptyBM ScheduleOrder.RoundRobin)
        (mkQueue (List.range 3) 1)).1 6).1 = true ∧
    6 ≤ 6 := by
  have h := roundRobin_fairness 3 1
  obtain ⟨h1, h2, h3, h4⟩ := h
  norm_num at h2
  refine ⟨?_, ?_, h4 6 (by decide)⟩
  · rw [h2]
    decide
  · rw [h2]
    decide

/-- Counterexample for C2 as stated: its general formula says draining N
Backfills of k Successes each takes N + N·k + N steps, which at the
claim's own instance N = 3, k = 1 gives 9; but 6 steps already drain all
three Backfills (and the claim itself asserts 6 for this instance). -/
theorem roundRobin_claim_formula_false :
    drainedB (drive (scheduleAll (emptyBM ScheduleOrder.RoundRobin)
        (mkQueue (List.range 3) 1)).1 6).1 = true ∧
    (drive (scheduleAll (emptyBM ScheduleOrder.RoundRobin)
        (mkQueue (List.range 3) 1)).1 (3 + 3 * 1 + 3)).2
      = (drive (scheduleAll (emptyBM ScheduleOrder.RoundRobin)
        (mkQueue (List.range 3) 1)).1 6).2 ∧
    3 + 3 * 1 + 3 ≠ 6 := by
  refine ⟨by decide, by decide, by decide⟩

/-- C3: with Sequential order, N Backfills each needing one initializing
run plus k further Successes and one Finished call: every Backfill first
gets exactly one initializing run in schedule order, then each runs to
completion before any later-queued Backfill runs again; draining takes
exactly N + N·(k+1) steps. For N = 3, k = 1 the run order is 0,1,2 then
0,0 then 1,1 then 2,2 — 9 steps. -/
theorem sequential_ordering (N k : Nat) :
    (scheduleAll (emptyBM ScheduleOrder.Sequential)
        (mkQueue (List.range N) (k + 1))).2.1
        = List.replicate N ScheduleResult.Active ∧
    drive (scheduleAll (emptyBM ScheduleOrder.Sequential)
        (mkQueue (List.range N) (k + 1))).1 (N + N * (k + 1))
        = (emptyBM ScheduleOrder.Sequential, seqCalls (List.range N) k) ∧
    runTrace (seqCalls (List.range N) k)
        = List.range N ++ (List.range N).bind (fun i => List.replicate (k + 1) i) ∧
    (∀ j, drainedB (drive (scheduleAll (emptyBM ScheduleOrder.Sequential)
        (mkQueue (List.range N) (k + 1))).1 j).1 = true → N + N * (k + 1) ≤ j) := by
  have hstart := scheduled_state ScheduleOrder.Sequential
    (mkQueue (List.range N) (k + 1))
  refine ⟨?_, ?_, runTrace_seqCalls (List.range N) k, ?_⟩
  · rw [scheduled_results]
    simp [mkQueue]
  · rw [hstart]
    exact drive_scheduledSeq N k
  · rw [hstart]
    apply drive_drained_lower
    rw [drive_scheduledSeq N k]
    have := countRun_seqCalls (List.range N) k
    simpa [List.length_range] using this

/-- Witness for C3 at the unit test's N = 3, k = 1: run order
0,1,2,0,0,1,1,2,2, and exactly 9 steps drain everything. -/
theorem sequential_ordering_witness :
    runTrace (drive (scheduleAll (emptyBM ScheduleOrder.Sequential)
        (mkQueue (List.range 3) 2)).1 9).2 = [0, 1, 2, 0, 0, 1, 1, 2, 2] ∧
    drainedB (drive (scheduleAll (emptyBM ScheduleOrder.Sequential)
        (mkQueue (List.range 3) 2)).1 9).1 = true ∧
    9 ≤ 9 := by
  have h := sequential_ordering 3 1
  obtain ⟨h1, h2, h3, h4⟩ := h
  norm_num at h2
  refine ⟨?_, ?_, h4 9 (by decide)⟩
  · rw [h2]
    decide
  · rw [h2]
    decide

/-! ### Tracker theorems -/

theorem reach_bounds (s : DcpConnMapBackfills) (h : Reach s) :
    s.running < UINT16_MOD ∧ s.maxRunning < UINT16_MOD := by
  induction h with
  | init maxR =>
    exact ⟨by norm_num [UINT16_MOD], Nat.mod_lt _ (by norm_num [UINT16_MOD])⟩
  | add s mgr hs ih =>
    obtain ⟨ih1, ih2⟩ := ih
    by_cases h1 : s.running < s.maxRunning
    · simp only [canAddBackfillToActiveQ, h1, if_true]
      exact ⟨Nat.mod_lt _ (by norm_num [UINT16_MOD]), ih2⟩
    · by_cases h2 : mgr ∈ s.pendingQueue <;>
        simp only [canAddBackfillToActiveQ, h1, h2, if_true, if_false,
          ite_false, ite_true] <;>
        exact ⟨ih1, ih2⟩
  | decr s hs ih =>
    obtain ⟨ih1, ih2⟩ := ih
    cases hq : s.pendingQueue with
    | nil =>
      simp only [decrNumRunningBackfills, hq]
      exact ⟨Nat.mod_lt _ (by norm_num [UINT16_MOD]), ih2⟩
    | cons m rest =>
      simp only [decrNumRunningBackfills, hq]
      exact ⟨ih1, ih2⟩
  | upd s v hs ih =>
    obtain ⟨ih1, ih2⟩ := ih
    simp only [updateMaxRunningBackfills]
    exact ⟨ih1, Nat.mod_lt _ (by norm_num [UINT16_MOD])⟩

theorem reach_117 : Reach ⟨1, 1, [7]⟩ := by
  have h0 : Reach ⟨0, 1, []⟩ := by
    have := Reach.init 1
    simpa [UINT16_MOD] using this
  have h1 : Reach ⟨1, 1, []⟩ := by
    have := Reach.add ⟨0, 1, []⟩ 7 h0
    simpa [canAddBackfillToActiveQ, UINT16_MOD] using this
  have h2 := Reach.add ⟨1, 1, []⟩ 7 h1
  simpa [canAddBackfillToActiveQ] using h2

/-- C10: the tracker's running count and configured maximum are uint16_t:
in every reachable state both lie in [0, 65535]; a stored maximum is the
configured value truncated mod 2^16 (so a maximum above 65535 cannot be
represented), and the decrement of an empty-queue release wraps modulo
2^16. -/
theorem tracker_uint16 (s : DcpConnMapBackfills) (h : Reach s) :
    s.running ≤ 65535 ∧ s.maxRunning ≤ 65535 ∧
    (∀ v, (updateMaxRunningBackfills s v).maxRunning = v % 65536) ∧
    (s.pendingQueue = [] →
      (decrNumRunningBackfills s).1.running = (s.running + 65535) % 65536) := by
  obtain ⟨h1, h2⟩ := reach_bounds s h
  refine ⟨by simp [UINT16_MOD] at h1; omega, by simp [UINT16_MOD] at h2; omega,
    fun v => rfl, fun hq => ?_⟩
  simp [decrNumRunningBackfills, hq, UINT16_MOD]

/-- Witness for C10: from a freshly built tracker with maximum 2, a release
with no waiters wraps 0 to 65535, and configuring 70000 stores
70000 mod 2^16. -/
theorem tracker_uint16_witness :
    (decrNumRunningBackfills ⟨0, 2, []⟩).1.running = (0 + 65535) % 65536 ∧
    (updateMaxRunningBackfills ⟨0, 2, []⟩ 70000).maxRunning = 70000 % 65536 := by
  have hr : Reach ⟨0, 2, []⟩ := by
    have := Reach.init 2
    simpa [UINT16_MOD] using this
  exact ⟨(tracker_uint16 ⟨0, 2, []⟩ hr).2.2.2 rfl,
    (tracker_uint16 ⟨0, 2, []⟩ hr).2.2.1 70000⟩

/-- C5 (amended): a release decrements the running count by exactly one
(with uint16 wrap-around) whenever no manager is waiting in the pending
queue — regardless of why the slot is released; when managers are waiting,
the freed slot is handed to the first waiting manager instead and the
running count is unchanged. -/
theorem release_decrements (s : DcpConnMapBackfills) :
    (s.pendingQueue = [] →
      (decrNumRunningBackfills s).1.running = (s.running + 65535) % 65536 ∧
      (decrNumRunningBackfills s).2 = none) ∧
    (∀ m rest, s.pendingQueue = m :: rest →
      (decrNumRunningBackfills s).1.running = s.running ∧
      (decrNumRunningBackfills s).2 = some m) ∧
    (s.pendingQueue = [] → 1 ≤ s.running → s.running ≤ 65535 →
      (decrNumRunningBackfills s).1.running = s.running - 1) := by
  refine ⟨fun hq => ?_, fun m rest hq => ?_, fun hq hlo hhi => ?_⟩
  · simp [decrNumRunningBackfills, hq, UINT16_MOD]
  · simp [decrNumRunningBackfills, hq]
  · simp [decrNumRunningBackfills, hq, UINT16_MOD]
    omega

/-- Witness for C5 (amended): with five slots held and nobody waiting, a
release leaves four. -/
theorem release_decrements_witness :
    (decrNumRunningBackfills ⟨5, 8, []⟩).1.running = 5 - 1 :=
  (release_decrements ⟨5, 8, []⟩).2.2 rfl (by decide) (by decide)

/-- Counterexample for C5 as stated: in the reachable tracker state with
running = maxRunning = 1 and manager 7 waiting, a release does not
decrement the running count — it stays 1 instead of becoming 0, because
the slot is transferred to the waiting manager. -/
theorem release_decrement_counterexample :
    Reach ⟨1, 1, [7]⟩ ∧
    (decrNumRunningBackfills ⟨1, 1, [7]⟩).1.running = 1 ∧
    (1 : Nat) ≠ 1 - 1 :=
  ⟨reach_117, rfl, by decide⟩

/-- C9: when a backfill completes while running = maxRunning and the
waiting queue is non-empty, the tracker does not decrement the running
count: it starts one backfill from the first waiting manager, removes that
manager from the queue, and the count stays at the maximum — the freed
slot transfers directly, with no separate admission request. -/
theorem completion_transfers_slot (s : DcpConnMapBackfills) (m : Nat)
    (rest : List Nat) (hfull : s.running = s.maxRunning)
    (hq : s.pendingQueue = m :: rest) :
    (decrNumRunningBackfills s).1.running = s.maxRunning ∧
    (decrNumRunningBackfills s).1.pendingQueue = rest ∧
    (decrNumRunningBackfills s).2 = some m := by
  simp [decrNumRunningBackfills, hq, hfull]

/-- Witness for C9 at a concrete full tracker with one waiter. -/
theorem completion_transfers_slot_witness :
    (decrNumRunningBackfills ⟨1, 1, [7]⟩).1.running = 1 ∧
    (decrNumRunningBackfills ⟨1, 1, [7]⟩).1.pendingQueue = [] ∧
    (decrNumRunningBackfills ⟨1, 1, [7]⟩).2 = some 7 :=
  completion_transfers_slot ⟨1, 1, [7]⟩ 7 [] rfl rfl

theorem canAdd_denied_of_full (s : DcpConnMapBackfills)
    (hfull : ¬ s.running < s.maxRunning) (mgr : Nat) :
    (canAddBackfillToActiveQ s mgr).2 = false := by
  by_cases h2 : mgr ∈ s.pendingQueue <;>
    simp [canAddBackfillToActiveQ, hfull, h2]

theorem waiting_nodup (s : DcpConnMapBackfills) (h : Reach s) :
    s.pendingQueue.Nodup := by
  induction h with
  | init maxR => simp
  | add s mgr hs ih =>
    by_cases h1 : s.running < s.maxRunning
    · simpa [canAddBackfillToActiveQ, h1] using ih
    · by_cases h2 : mgr ∈ s.pendingQueue
      · simpa [canAddBackfillToActiveQ, h1, h2] using ih
      · simp only [canAddBackfillToActiveQ, h1, h2, if_false, ite_false,
          ite_true]
        refine List.Nodup.append ih (List.nodup_singleton mgr) ?_
        simp [List.disjoint_singleton]
        exact h2
  | decr s hs ih =>
    cases hq : s.pendingQueue with
    | nil => simpa [decrNumRunningBackfills, hq] using ih
    | cons m rest =>
      rw [hq] at ih
      simpa [decrNumRunningBackfills, hq] using ih.of_cons
  | upd s v hs ih => simpa [updateMaxRunningBackfills] using ih

/-- C7: in every reachable tracker state the waiting collection has at
most one entry per manager (the set-backed uniqueness of pendingSet), and
a freed slot is granted to the head of the waiting queue in FIFO
registration order, after which a fresh admission request at the full
tracker is still denied — the registered waiter is preferred. -/
theorem waiting_fifo_unique (s : DcpConnMapBackfills) (h : Reach s) :
    s.pendingQueue.Nodup ∧
    (∀ m rest, s.pendingQueue = m :: rest →
      (decrNumRunningBackfills s).2 = some m ∧
      (decrNumRunningBackfills s).1.pendingQueue = rest ∧
      (s.running = s.maxRunning → ∀ mgr,
        (canAddBackfillToActiveQ (decrNumRunningBackfills s).1 mgr).2
          = false)) := by
  refine ⟨waiting_nodup s h, fun m rest hq => ⟨by simp [decrNumRunningBackfills, hq],
    by simp [decrNumRunningBackfills, hq], fun hfull mgr => ?_⟩⟩
  apply canAdd_denied_of_full
  simp [decrNumRunningBackfills, hq, hfull]

/-- Witness for C7 at the reachable state with one waiting manager. -/
theorem waiting_fifo_unique_witness :
    List.Nodup [7] ∧
    (decrNumRunningBackfills ⟨1, 1, [7]⟩).2 = some 7 ∧
    (canAddBackfillToActiveQ (decrNumRunningBackfills ⟨1, 1, [7]⟩).1 9).2
      = false := by
  have h := waiting_fifo_unique ⟨1, 1, [7]⟩ reach_117
  exact ⟨h.1, (h.2 7 [] rfl).1, (h.2 7 [] rfl).2.2 rfl 9⟩
